import Mathlib

/-!
Verification of the MemOS retrieval-and-consistency core against its
natural-language specification.  The four subsystems under study (goal
parser, hybrid retriever, pre-write consistency checker with perspective
adjustment, relation-and-reasoning engine) and the NLI-classifier client
are shallowly embedded below; external collaborators (graph store,
embedder, language model, NLI server handler) are passed in as explicit
function parameters, as the specification treats them as call/response
collaborators with a defined contract.
-/

namespace MemOS

/-! ### Perspective adjustment (Pre-Write Consistency Checker, step 1) -/

/-- Modelled from the spec: the repository ships only the tests of
`PreUpdateRetriever._adjust_perspective` (module
`memos.memories.textual.tree_text_memory.retrieve.pre_update` is absent),
so the rewrite of first-person pronouns into a role-qualified third
person form is modelled from the specification rules.  Trailing
punctuation characters recognised when isolating the word core. -/
def isPunct (c : Char) : Bool :=
  c = '.' || c = ',' || c = '!' || c = '?' || c = ';' || c = ':'

/-- Split a word into its core and its trailing punctuation suffix. -/
def splitCore : List Char → List Char × List Char
  | [] => ([], [])
  | c :: rest =>
    match splitCore rest with
    | ([], punct) => if isPunct c then ([], c :: punct) else ([c], punct)
    | (d :: core, punct) => (c :: d :: core, punct)

/-- English first-person pronoun table from the spec:
"I" / "me" / "myself". -/
def enFirstPerson (core : List Char) : Bool :=
  core = "I".data || core = "me".data || core = "myself".data

/-- Modelled from the spec: the declared role is rendered title-cased
("user" becomes "User") before being substituted for a pronoun. -/
def capitalizeRole : List Char → List Char
  | [] => []
  | c :: rest => c.toUpper :: rest.map Char.toLower

/-- Modelled from the spec: per-word English substitution,
"I"/"me" to the title-cased role, "myself" to "Role himself",
keeping any trailing punctuation. -/
def adjustWordEn (role w : List Char) : List (List Char) :=
  let core := (splitCore w).1
  let punct := (splitCore w).2
  if core = "I".data || core = "me".data then [capitalizeRole role ++ punct]
  else if core = "myself".data then [capitalizeRole role, "himself".data ++ punct]
  else [w]

/-- Attach a character to the first word of a split result. -/
def consHead (c : Char) : List (List Char) → List (List Char)
  | [] => [[c]]
  | w :: ws => (c :: w) :: ws

/-- Split a character list on spaces (empty words are kept, mirroring
standard split semantics). -/
def splitW : List Char → List (List Char)
  | [] => [[]]
  | c :: rest => if c = ' ' then [] :: splitW rest else consHead c (splitW rest)

/-- Join words back with single spaces. -/
def joinW : List (List Char) → List Char
  | [] => []
  | [w] => w
  | w :: ws => w ++ ' ' :: joinW ws

/-- English perspective adjustment over a whole text: substitute each
word through the pronoun table. -/
def adjustTextEn (role text : List Char) : List Char :=
  joinW ((splitW text).flatMap (adjustWordEn role))

/-- Modelled from the spec: Chinese rule, every occurrence of the
first-person character is replaced by the observer form. -/
def adjustTextZh : List Char → List Char
  | [] => []
  | c :: rest =>
    if c = '我' then "用户".data ++ adjustTextZh rest
    else c :: adjustTextZh rest

/-- Modelled from the spec: `PreUpdateRetriever._adjust_perspective`,
dispatching on the declared language of the originating message. -/
def adjust_perspective (text role lang : String) : String :=
  if lang = "zh" then String.mk (adjustTextZh text.data)
  else if lang = "en" then String.mk (adjustTextEn role.data text.data)
  else text

/-- A role is safe when no word of its title-cased form has a
first-person pronoun as its core; every ordinary single-word role such
as "user" or "assistant" is safe. -/
def roleSafeL (role : List Char) : Bool :=
  (splitW (capitalizeRole role)).all (fun w => !enFirstPerson (splitCore w).1)

/-- Safety of a role given as a string. -/
def roleSafe (role : String) : Bool :=
  roleSafeL role.data

/-- Substring test on character lists: prefix check. -/
def isPrefixL : List Char → List Char → Bool
  | [], _ => true
  | _ :: _, [] => false
  | a :: as, b :: bs => a = b && isPrefixL as bs

/-- Substring test on character lists. -/
def isInfixL (sub : List Char) : List Char → Bool
  | [] => isPrefixL sub []
  | c :: rest => isPrefixL sub (c :: rest) || isInfixL sub rest

/-- Substring test on strings. -/
def containsStr (s sub : String) : Bool :=
  isInfixL sub.data s.data

/-! ### Data model shared by the checker, retriever and reasoning engine -/

/-- Pairwise NLI classification of a candidate text against a stored
text, as produced by the NLI classifier service. -/
inductive NLIResult where
  | DUPLICATE
  | CONTRADICTION
  | UNRELATED
deriving DecidableEq

/-- Lifecycle status of a memory node. -/
inductive NodeStatus where
  | Activated
  | Archived
  | Merged
deriving DecidableEq

/-- Memory node restricted to the fields the verified claims touch
(identifier, text, topic key, tags, provenance ids, status, the
conflict marker set by a Flagged write, and the update timestamp). -/
structure MemoryNode where
  id : Nat
  text : String
  key : String
  tags : List String
  sources : List Nat
  status : NodeStatus
  flagged : Bool
  updated_at : Nat
deriving DecidableEq

/-- Typed relation between two memory nodes. -/
inductive RelationType where
  | Causes
  | Follows
  | RelatedTo
  | Aggregates
  | Contradicts
deriving DecidableEq

/-- Typed edge of the memory graph. -/
structure MemoryEdge where
  source_id : Nat
  target_id : Nat
  relation_type : RelationType
deriving DecidableEq

/-! ### NLI classifier client -/

/-- Modelled from the spec: `NLIClient.compare_one_to_many` (module
`memos.extras.nli_model.client` is absent from the sources, only its
integration tests are present).  The remote server handler is an
explicit parameter that may fail; the client returns the per-target
classifications together with the number of remote calls it issued.
An empty target list is answered locally; a handler error yields the
best-effort fallback UNRELATED for every target. -/
def compare_one_to_many
    (server : String → List String → Except String (List NLIResult))
    (source : String) (targets : List String) : List NLIResult × Nat :=
  if targets.isEmpty then ([], 0)
  else
    match server source targets with
    | Except.ok rs =>
        (rs.take targets.length ++
          List.replicate (targets.length - rs.length) NLIResult.UNRELATED, 1)
    | Except.error _ => (List.replicate targets.length NLIResult.UNRELATED, 1)

/-! ### Pre-Write Consistency Checker -/

/-- Caller-visible outcome of `CheckAndCommit`. -/
inductive CommitDecision where
  | Committed : Nat → CommitDecision
  | SkippedDuplicate : Nat → CommitDecision
  | Flagged : Nat → CommitDecision
deriving DecidableEq

/-- Candidate fact presented to the checker, with the declared role and
language of its originating message. -/
structure Candidate where
  id : Nat
  text : String
  role : String
  lang : String
  updated_at : Nat
deriving DecidableEq

/-- Duplicate test against one retrieved neighbor. -/
def dupPred (nli : String → String → NLIResult) (adjusted : String)
    (n : MemoryNode) : Bool :=
  decide (nli adjusted n.text = NLIResult.DUPLICATE)

/-- Contradiction test against one retrieved neighbor. -/
def contraPred (nli : String → String → NLIResult) (adjusted : String)
    (n : MemoryNode) : Bool :=
  decide (nli adjusted n.text = NLIResult.CONTRADICTION)

/-- Node written by a commit: stores the perspective-adjusted text, and
carries the conflict marker exactly when the write was flagged. -/
def newNode (cand : Candidate) (adjusted : String) (fl : Bool) : MemoryNode :=
  { id := cand.id, text := adjusted, key := "", tags := [], sources := [],
    status := NodeStatus.Activated, flagged := fl, updated_at := cand.updated_at }

/-- Core of the checker, taking the already-adjusted text: retrieve
neighbors, skip on any Duplicate, flag (but still write, marked) on any
Contradiction, otherwise commit as a new node. -/
def checkAndCommitCore (nli : String → String → NLIResult)
    (retrieveK : List MemoryNode → String → List MemoryNode)
    (store : List MemoryNode) (cand : Candidate) (adjusted : String) :
    CommitDecision × List MemoryNode :=
  match (retrieveK store adjusted).find? (dupPred nli adjusted) with
  | some n => (CommitDecision.SkippedDuplicate n.id, store)
  | none =>
    match (retrieveK store adjusted).find? (contraPred nli adjusted) with
    | some n => (CommitDecision.Flagged n.id, newNode cand adjusted true :: store)
    | none => (CommitDecision.Committed cand.id, newNode cand adjusted false :: store)

/-- Modelled from the spec: `CheckAndCommit` (§4.3) — the checker module
is absent from the sources.  Perspective-adjust the candidate text, then
run the core decision policy; the namespace-scoped store is the list of
nodes, and the retriever and NLI classifier are collaborator
parameters. -/
def checkAndCommit (nli : String → String → NLIResult)
    (retrieveK : List MemoryNode → String → List MemoryNode)
    (store : List MemoryNode) (cand : Candidate) :
    CommitDecision × List MemoryNode :=
  checkAndCommitCore nli retrieveK store cand
    (adjust_perspective cand.text cand.role cand.lang)

/-- Live (activated) nodes of the store carrying exactly the given text. -/
def liveWithText (store : List MemoryNode) (t : String) : List MemoryNode :=
  store.filter (fun n =>
    decide (n.status = NodeStatus.Activated) && decide (n.text = t))

/-- Text of the first node with the given id, when present. -/
def getNodeText (store : List MemoryNode) (i : Nat) : Option String :=
  (store.find? (fun n => decide (n.id = i))).map (fun n => n.text)

/-- Concrete NLI collaborator used by witnesses: identical texts are
duplicates, the apple pair contradicts, anything else is unrelated. -/
def nliApples : String → String → NLIResult := fun s t =>
  if s = t then NLIResult.DUPLICATE
  else if s = "User dislikes apples." ∧ t = "User likes apples." then
    NLIResult.CONTRADICTION
  else NLIResult.UNRELATED

/-- Concrete retriever collaborator used by witnesses: returns every
live node of the namespace. -/
def retrieveLive : List MemoryNode → String → List MemoryNode := fun store _ =>
  store.filter (fun n => decide (n.status = NodeStatus.Activated))

/-! ### Hybrid Retriever -/

/-- Retrieval candidate with its combined score. -/
structure ScoredNode where
  node : MemoryNode
  score : Int
deriving DecidableEq

/-- Fixed additive keyword boost of the score-fusion stage. -/
def keywordBoost : Int := 10

/-- Fixed penalty subtracted from the linked score of a graph-stage
candidate. -/
def traversalPenalty : Int := 5

/-- Modelled from the spec: score fusion (§4.2 step 4) — vector-stage
candidates whose node matched the keyword stage get the fixed additive
boost. -/
def fuseScores (vector : List ScoredNode) (keywordIds : List Nat) :
    List ScoredNode :=
  vector.map (fun s =>
    if s.node.id ∈ keywordIds then { s with score := s.score + keywordBoost }
    else s)

/-- Modelled from the spec: graph stage (§4.2 step 3) — candidates
reached by one-hop traversal are appended with the linked node score
minus the fixed traversal penalty. -/
def graphStage (graph : List (ScoredNode × MemoryNode)) : List ScoredNode :=
  graph.map (fun p => { node := p.2, score := p.1.score - traversalPenalty })

/-- Keep the first occurrence of every node id. -/
def dedupById (seen : List Nat) : List ScoredNode → List ScoredNode
  | [] => []
  | s :: rest =>
    if s.node.id ∈ seen then dedupById seen rest
    else s :: dedupById (s.node.id :: seen) rest

/-- Ranking relation of the result list: descending combined score, ties
broken by the more recent `updated_at` first. -/
def rankLE (a b : ScoredNode) : Prop :=
  b.score < a.score ∨ (a.score = b.score ∧ b.node.updated_at ≤ a.node.updated_at)

instance : DecidableRel rankLE := fun a b => by
  unfold rankLE
  exact inferInstance

instance : IsTotal ScoredNode rankLE :=
  ⟨by
    intro a b
    unfold rankLE
    rcases lt_trichotomy a.score b.score with h | h | h
    · exact Or.inr (Or.inl h)
    · rcases Nat.le_total b.node.updated_at a.node.updated_at with h2 | h2
      · exact Or.inl (Or.inr ⟨h, h2⟩)
      · exact Or.inr (Or.inr ⟨h.symm, h2⟩)
    · exact Or.inl (Or.inl h)⟩

instance : IsTrans ScoredNode rankLE :=
  ⟨by
    intro a b c hab hbc
    unfold rankLE at hab hbc ⊢
    rcases hab with h1 | ⟨h1, h1u⟩ <;> rcases hbc with h2 | ⟨h2, h2u⟩
    · exact Or.inl (by omega)
    · exact Or.inl (by omega)
    · exact Or.inl (by omega)
    · exact Or.inr ⟨by omega, by omega⟩⟩

/-- Modelled from the spec: `GraphMemoryRetriever.retrieve` (§4.2) — the
retriever module is absent from the sources.  The vector, keyword and
graph stages are abstracted by their candidate lists (the store is an
external collaborator); the final pipeline fuses scores, appends the
graph candidates, deduplicates by node id, sorts by the ranking
relation, and truncates to `topK`. -/
def retrieve (vector : List ScoredNode) (keywordIds : List Nat)
    (graph : List (ScoredNode × MemoryNode)) (topK : Nat) : List ScoredNode :=
  (List.insertionSort rankLE
    (dedupById [] (fuseScores vector keywordIds ++ graphStage graph))).take topK

/-! ### Goal Parser -/

/-- Retrieval intent classification of a parsed goal. -/
inductive GoalType where
  | Retrieval
  | Update
deriving DecidableEq

/-- Structured retrieval plan produced per query. -/
structure ParsedTaskGoal where
  memories : List String
  keys : List String
  tags : List String
  goal_type : GoalType
deriving DecidableEq

/-- Parsing mode: fast issues one short prompt, fine a longer one. -/
inductive ParseMode where
  | fast
  | fine
deriving DecidableEq

/-- First prompt issued for a task in the given mode. -/
def initPrompt (mode : ParseMode) (task : String) : String :=
  match mode with
  | ParseMode.fast => "Parse briefly: " ++ task
  | ParseMode.fine => "Parse in detail: " ++ task

/-- Corrective retry prompt after a JSON-shape mismatch. -/
def correctivePrompt (mode : ParseMode) (task : String) : String :=
  "Return valid JSON only. " ++ initPrompt mode task

/-- Minimal fallback goal when both parses fail. -/
def fallbackGoal (task : String) : ParsedTaskGoal :=
  { memories := [task], keys := [], tags := [],
    goal_type := GoalType.Retrieval }

/-- Modelled from the spec: `TaskGoalParser.parse` (§4.1) — the parser
module is absent from the sources.  The language model is a
prompt-to-text collaborator and `decode` is the JSON-shape validation;
on mismatch the parser retries exactly once with a corrective
instruction and then falls back to the minimal goal.  The returned list
records the prompts issued. -/
def parseTaskGoal (llm : String → String)
    (decode : String → Option ParsedTaskGoal)
    (task : String) (mode : ParseMode) : ParsedTaskGoal × List String :=
  match decode (llm (initPrompt mode task)) with
  | some g => (g, [initPrompt mode task])
  | none =>
    match decode (llm (correctivePrompt mode task)) with
    | some g => (g, [initPrompt mode task, correctivePrompt mode task])
    | none => (fallbackGoal task, [initPrompt mode task, correctivePrompt mode task])

/-! ### Relation & Reasoning Engine -/

/-- A pairwise classification counts as a temporal or causal
association when it is Causes or Follows. -/
def isTemporalAssoc : Option RelationType → Bool
  | some RelationType.Causes => true
  | some RelationType.Follows => true
  | _ => false

/-- Modelled from the spec: sequence detection (§4.5 step 4) of
`RelationAndReasoningDetector.process_node` — the detector module is
absent from the sources.  Among anchor/neighbor pairs with distinct
`updated_at` whose classification indicates a temporal or causal
association, a Follows link is proposed from the earlier to the later
node. -/
def sequence_links (relClassify : MemoryNode → MemoryNode → Option RelationType)
    (anchor : MemoryNode) (neighbors : List MemoryNode) :
    List (MemoryNode × MemoryNode) :=
  neighbors.filterMap (fun n =>
    if isTemporalAssoc (relClassify anchor n) then
      if anchor.updated_at < n.updated_at then some (anchor, n)
      else if n.updated_at < anchor.updated_at then some (n, anchor)
      else none
    else none)

/-- Number of tags of `a` also carried by `b`. -/
def sharedTagCount (a b : MemoryNode) : Nat :=
  (a.tags.filter (fun t => t ∈ b.tags)).length

/-- Modelled from the spec: aggregate synthesis (§4.5 step 5) of
`RelationAndReasoningDetector.process_node`.  Neighbors sharing at
least two tags with the anchor or its exact key form a cluster with the
anchor; a cluster of at least two members yields one aggregate node
whose `sources` are the member ids, linked to every member by an
Aggregates edge. -/
def aggregate_nodes (aggId : Nat) (anchor : MemoryNode)
    (neighbors : List MemoryNode) : List (MemoryNode × List MemoryEdge) :=
  let cluster := anchor :: neighbors.filter (fun n =>
    decide (2 ≤ sharedTagCount anchor n) || decide (n.key = anchor.key))
  if 2 ≤ cluster.length then
    [({ id := aggId, text := "Aggregate: " ++ anchor.key, key := anchor.key,
        tags := anchor.tags, sources := cluster.map (fun m => m.id),
        status := NodeStatus.Activated, flagged := false,
        updated_at := anchor.updated_at },
      cluster.map (fun m =>
        { source_id := aggId, target_id := m.id,
          relation_type := RelationType.Aggregates }))]
  else []

/-- Output bundle of `process_node`. -/
structure ProcessNodeResult where
  relations : List MemoryEdge
  seq_links : List (MemoryNode × MemoryNode)
  agg_nodes : List (MemoryNode × List MemoryEdge)
deriving DecidableEq

/-- Modelled from the spec: typed-edge construction guarded by the
data-model invariant (§3, enforced per §7 as an InvariantViolation that
rejects the single edge): a Follows edge is only created from the node
with the strictly earlier `updated_at` to the strictly later one, and
is rejected outright when the timestamps are equal; every other
relation type passes through unchanged. -/
def mkRelationEdge (a b : MemoryNode) (r : RelationType) : Option MemoryEdge :=
  if r = RelationType.Follows then
    if a.updated_at < b.updated_at then
      some { source_id := a.id, target_id := b.id,
             relation_type := RelationType.Follows }
    else if b.updated_at < a.updated_at then
      some { source_id := b.id, target_id := a.id,
             relation_type := RelationType.Follows }
    else none
  else some { source_id := a.id, target_id := b.id, relation_type := r }

/-- Modelled from the spec: `RelationAndReasoningDetector.process_node`
(§4.5) — pairwise relation classification (None pairs dropped, every
kept pair turned into a typed edge through the invariant-guarded
constructor), sequence detection, and aggregate synthesis over the
neighbor set.  Multi-hop inferred nodes are outside the verified claims
and are not modelled. -/
def process_node (relClassify : MemoryNode → MemoryNode → Option RelationType)
    (aggId : Nat) (anchor : MemoryNode) (neighbors : List MemoryNode) :
    ProcessNodeResult :=
  { relations := neighbors.filterMap (fun n =>
      (relClassify anchor n).bind (fun r => mkRelationEdge anchor n r)),
    seq_links := sequence_links relClassify anchor neighbors,
    agg_nodes := aggregate_nodes aggId anchor neighbors }

/-! ### Concrete fixtures used by witnesses -/

/-- Stress fact, the earlier node of the witness scenario. -/
def nodeA : MemoryNode :=
  { id := 1, text := "Caroline faced workload stress.", key := "stress",
    tags := ["stress", "work"], sources := [], status := NodeStatus.Activated,
    flagged := false, updated_at := 10 }

/-- Support-group fact, the later node of the witness scenario. -/
def nodeB : MemoryNode :=
  { id := 2, text := "Caroline joined a support group.", key := "support group",
    tags := ["support group", "LGBTQ"], sources := [],
    status := NodeStatus.Activated, flagged := false, updated_at := 20 }

/-- A second stress fact sharing the key of `nodeA`. -/
def nodeC : MemoryNode :=
  { id := 3, text := "Work pressure increases stress.", key := "stress",
    tags := ["stress", "pressure"], sources := [],
    status := NodeStatus.Activated, flagged := false, updated_at := 30 }

/-- Placeholder node for list defaults. -/
def dummyNode : MemoryNode :=
  { id := 0, text := "", key := "", tags := [], sources := [],
    status := NodeStatus.Archived, flagged := false, updated_at := 0 }

/-- The single aggregate produced for anchor `nodeA` with neighbor
`nodeC`. -/
def aggW : MemoryNode × List MemoryEdge :=
  ((process_node (fun _ _ => none) 99 nodeA [nodeC]).agg_nodes).headD
    (dummyNode, [])

/-- Candidate fact committed twice in the duplicate-write witness. -/
def candApples : Candidate :=
  { id := 7, text := "I like apples.", role := "user", lang := "en",
    updated_at := 5 }

/-- Stored original fact of the contradiction witness. -/
def nodeOrig : MemoryNode :=
  { id := 10, text := "User likes apples.", key := "", tags := [],
    sources := [], status := NodeStatus.Activated, flagged := false,
    updated_at := 1 }

/-- Contradicting candidate of the contradiction witness. -/
def candContra : Candidate :=
  { id := 11, text := "User dislikes apples.", role := "user", lang := "en",
    updated_at := 2 }

theorem consHead_cons (c : Char) (w : List Char) (ws : List (List Char)) :
    consHead c (w :: ws) = (c :: w) :: ws := rfl

theorem splitW_ne_nil (l : List Char) : splitW l ≠ [] := by
  induction l with
  | nil => simp [splitW]
  | cons c rest ih =>
    simp only [splitW]
    by_cases hc : c = ' '
    · simp [hc]
    · simp only [hc, if_false]
      obtain ⟨w, ws, hw⟩ := List.exists_cons_of_ne_nil ih
      rw [hw, consHead_cons]
      simp

theorem joinW_cons (w : List Char) (ws : List (List Char)) (h : ws ≠ []) :
    joinW (w :: ws) = w ++ ' ' :: joinW ws := by
  cases ws with
  | nil => exact absurd rfl h
  | cons w2 ws2 => rfl

theorem splitW_append_space (u v : List Char) :
    splitW (u ++ ' ' :: v) = splitW u ++ splitW v := by
  induction u with
  | nil => simp [splitW]
  | cons c u ih =>
    by_cases hc : c = ' '
    · simp only [List.cons_append, splitW, hc, if_true]
      simp [ih]
    · obtain ⟨w, ws, hw⟩ := List.exists_cons_of_ne_nil (splitW_ne_nil u)
      have hsw : splitW ((c :: u) ++ ' ' :: v) = consHead c (splitW (u ++ ' ' :: v)) := by
        simp [splitW, hc]
      rw [hsw, ih, hw, List.cons_append, consHead_cons]
      rw [show splitW (c :: u) = consHead c (splitW u) by simp [splitW, hc]]
      rw [hw, consHead_cons]
      simp

theorem joinW_splitW (l : List Char) : joinW (splitW l) = l := by
  induction l with
  | nil => rfl
  | cons c rest ih =>
    by_cases hc : c = ' '
    · rw [show splitW (c :: rest) = [] :: splitW rest by simp [splitW, hc]]
      rw [joinW_cons _ _ (splitW_ne_nil rest), ih, hc]
      rfl
    · obtain ⟨w, ws, hw⟩ := List.exists_cons_of_ne_nil (splitW_ne_nil rest)
      rw [show splitW (c :: rest) = (c :: w) :: ws by
        simp [splitW, hc, hw, consHead_cons]]
      cases ws with
      | nil =>
        rw [hw] at ih
        have hjw : joinW ([w] : List (List Char)) = w := rfl
        rw [hjw] at ih
        show c :: w = c :: rest
        rw [ih]
      | cons w2 ws2 =>
        rw [joinW_cons _ _ (by simp)]
        rw [hw] at ih
        rw [joinW_cons _ _ (by simp)] at ih
        simpa using congrArg (c :: ·) ih

theorem flatMap_splitW_ne_nil (ws : List (List Char)) (h : ws ≠ []) :
    ws.flatMap splitW ≠ [] := by
  cases ws with
  | nil => exact absurd rfl h
  | cons w ws =>
    simp only [List.flatMap_cons]
    intro hcontra
    exact splitW_ne_nil w (List.append_eq_nil.mp hcontra).1

theorem splitW_joinW_flat (ws : List (List Char)) (h : ws ≠ []) :
    splitW (joinW ws) = ws.flatMap splitW := by
  induction ws with
  | nil => exact absurd rfl h
  | cons w ws ih =>
    cases ws with
    | nil => simp [joinW]
    | cons w2 ws2 =>
      rw [joinW_cons _ _ (by simp), splitW_append_space, ih (by simp)]
      simp

theorem joinW_append (la lb : List (List Char)) (ha : la ≠ []) (hb : lb ≠ []) :
    joinW (la ++ lb) = joinW la ++ ' ' :: joinW lb := by
  induction la with
  | nil => exact absurd rfl ha
  | cons a la ih =>
    cases la with
    | nil => simpa using joinW_cons a lb hb
    | cons a2 la2 =>
      have h1 : joinW (a :: (a2 :: la2 ++ lb)) = a ++ ' ' :: joinW (a2 :: la2 ++ lb) :=
        joinW_cons _ _ (by simp)
      have h2 := ih (by simp)
      have h3 : joinW (a :: a2 :: la2) = a ++ ' ' :: joinW (a2 :: la2) :=
        joinW_cons _ _ (by simp)
      calc joinW ((a :: a2 :: la2) ++ lb)
          = a ++ ' ' :: joinW (a2 :: la2 ++ lb) := by simpa using h1
        _ = a ++ ' ' :: (joinW (a2 :: la2) ++ ' ' :: joinW lb) := by rw [h2]
        _ = joinW (a :: a2 :: la2) ++ ' ' :: joinW lb := by rw [h3]; simp

theorem joinW_flatMap_splitW (ws : List (List Char)) (h : ws ≠ []) :
    joinW (ws.flatMap splitW) = joinW ws := by
  induction ws with
  | nil => exact absurd rfl h
  | cons w ws ih =>
    cases ws with
    | nil =>
      simp only [List.flatMap_cons, List.flatMap_nil, List.append_nil, joinW_splitW]
      rfl
    | cons w2 ws2 =>
      have hne : (w2 :: ws2).flatMap splitW ≠ [] :=
        flatMap_splitW_ne_nil _ (by simp)
      calc joinW ((w :: w2 :: ws2).flatMap splitW)
          = joinW (splitW w ++ (w2 :: ws2).flatMap splitW) := by
            rw [List.flatMap_cons]
        _ = joinW (splitW w) ++ ' ' :: joinW ((w2 :: ws2).flatMap splitW) :=
            joinW_append _ _ (splitW_ne_nil w) hne
        _ = w ++ ' ' :: joinW (w2 :: ws2) := by rw [joinW_splitW, ih (by simp)]
        _ = joinW (w :: w2 :: ws2) := (joinW_cons _ _ (by simp)).symm

theorem splitW_nospace (l : List Char) (h : ∀ c ∈ l, c ≠ ' ') :
    splitW l = [l] := by
  induction l with
  | nil => rfl
  | cons c rest ih =>
    have hc : c ≠ ' ' := h c (by simp)
    simp only [splitW, hc, if_false]
    rw [ih (fun d hd => h d (by simp [hd])), consHead_cons]

theorem mem_splitW_nospace (l w : List Char) (hw : w ∈ splitW l) :
    ∀ c ∈ w, c ≠ ' ' := by
  induction l generalizing w with
  | nil =>
    simp only [splitW, List.mem_singleton] at hw
    simp [hw]
  | cons c rest ih =>
    by_cases hc : c = ' '
    · simp only [splitW, hc, if_true, List.mem_cons] at hw
      rcases hw with h1 | h1
      · simp [h1]
      · exact ih w h1
    · simp only [splitW, hc, if_false] at hw
      obtain ⟨w0, ws0, hw0⟩ := List.exists_cons_of_ne_nil (splitW_ne_nil rest)
      rw [hw0, consHead_cons] at hw
      simp only [List.mem_cons] at hw
      rcases hw with h1 | h1
      · intro d hd
        rw [h1] at hd
        rcases List.mem_cons.mp hd with h2 | h2
        · rw [h2]; exact hc
        · exact ih w0 (by rw [hw0]; simp) d h2
      · exact ih w (by rw [hw0]; simp [h1])

theorem splitCore_allPunct (p : List Char) (h : ∀ c ∈ p, isPunct c = true) :
    splitCore p = ([], p) := by
  induction p with
  | nil => rfl
  | cons c rest ih =>
    simp only [splitCore, ih (fun d hd => h d (by simp [hd]))]
    simp [h c (by simp)]

theorem splitCore_append_punct (w p : List Char) (h : ∀ c ∈ p, isPunct c = true) :
    (splitCore (w ++ p)).1 = (splitCore w).1 := by
  induction w with
  | nil => simp [splitCore_allPunct p h, splitCore]
  | cons c rest ih =>
    simp only [List.cons_append, splitCore]
    rcases h1 : splitCore (rest ++ p) with ⟨f1, s1⟩
    rcases h2 : splitCore rest with ⟨f2, s2⟩
    have hf : f1 = f2 := by
      have h3 := ih
      rw [h1, h2] at h3
      exact h3
    subst hf
    cases f1 with
    | nil => cases hp : isPunct c <;> simp [hp]
    | cons d core => simp

theorem splitCore_punct_isPunct (w : List Char) :
    ∀ c ∈ (splitCore w).2, isPunct c = true := by
  induction w with
  | nil => simp [splitCore]
  | cons c rest ih =>
    simp only [splitCore]
    rcases h1 : splitCore rest with ⟨f1, s1⟩
    rw [h1] at ih
    cases f1 with
    | nil =>
      cases hp : isPunct c with
      | false => simpa [hp] using ih
      | true =>
        simp only [hp, if_true]
        intro d hd
        rcases List.mem_cons.mp hd with h2 | h2
        · rw [h2]; exact hp
        · exact ih d h2
    | cons e core => simpa using ih

theorem punct_nospace (p : List Char) (h : ∀ c ∈ p, isPunct c = true) :
    ∀ c ∈ p, c ≠ ' ' := by
  intro c hc heq
  have h2 := h c hc
  rw [heq] at h2
  simp [isPunct] at h2

theorem splitW_append_nospace (u p : List Char) (hp : ∀ c ∈ p, c ≠ ' ') :
    ∃ us u0, splitW u = us ++ [u0] ∧ splitW (u ++ p) = us ++ [u0 ++ p] := by
  induction u with
  | nil =>
    refine ⟨[], [], rfl, ?_⟩
    simpa using splitW_nospace p hp
  | cons c u ih =>
    obtain ⟨us, u0, h1, h2⟩ := ih
    by_cases hc : c = ' '
    · refine ⟨[] :: us, u0, ?_, ?_⟩
      · simp [splitW, hc, h1]
      · simp [splitW, hc, h2]
    · cases us with
      | nil =>
        refine ⟨[], c :: u0, ?_, ?_⟩
        · simp only [splitW, hc, if_false]
          rw [show splitW u = [u0] by simpa using h1]
          simp [consHead_cons]
        · have hsw : splitW ((c :: u) ++ p) = consHead c (splitW (u ++ p)) := by
            simp [splitW, hc]
          rw [hsw, show splitW (u ++ p) = [u0 ++ p] by simpa using h2]
          simp [consHead_cons]
      | cons w us2 =>
        refine ⟨(c :: w) :: us2, u0, ?_, ?_⟩
        · simp only [splitW, hc, if_false]
          rw [show splitW u = w :: (us2 ++ [u0]) by simpa using h1]
          rw [consHead_cons]
          simp
        · have hsw : splitW ((c :: u) ++ p) = consHead c (splitW (u ++ p)) := by
            simp [splitW, hc]
          rw [hsw, show splitW (u ++ p) = w :: (us2 ++ [u0 ++ p]) by simpa using h2]
          rw [consHead_cons]
          simp

theorem adjustWordEn_of_not (role p : List Char)
    (h : enFirstPerson (splitCore p).1 = false) :
    adjustWordEn role p = [p] := by
  simp only [enFirstPerson, Bool.or_eq_false_iff, decide_eq_false_iff_not] at h
  simp [adjustWordEn, h.1.1, h.1.2, h.2]

theorem roleSafe_part (role part punct : List Char)
    (hr : roleSafeL role = true)
    (hpunct : ∀ c ∈ punct, isPunct c = true)
    (hpart : part ∈ splitW (capitalizeRole role ++ punct)) :
    enFirstPerson (splitCore part).1 = false := by
  obtain ⟨us, u0, h1, h2⟩ :=
    splitW_append_nospace (capitalizeRole role) punct (punct_nospace punct hpunct)
  rw [h2] at hpart
  rw [roleSafeL, List.all_eq_true] at hr
  rcases List.mem_append.mp hpart with h3 | h3
  · have h4 := hr part (by rw [h1]; exact List.mem_append.mpr (Or.inl h3))
    simpa using h4
  · rw [List.mem_singleton.mp h3, splitCore_append_punct _ _ hpunct]
    have h4 := hr u0 (by rw [h1]; simp)
    simpa using h4

theorem adjustWordEn_ne_nil (role w : List Char) : adjustWordEn role w ≠ [] := by
  simp only [adjustWordEn]
  split
  · simp
  · split <;> simp

theorem flatMap_adjust_ne_nil (role : List Char) (ws : List (List Char)) (h : ws ≠ []) :
    ws.flatMap (adjustWordEn role) ≠ [] := by
  cases ws with
  | nil => exact absurd rfl h
  | cons w ws =>
    rw [List.flatMap_cons]
    intro hc
    exact adjustWordEn_ne_nil role w (List.append_eq_nil.mp hc).1

theorem flatMap_eq_self (l : List (List Char)) (f : List Char → List (List Char))
    (h : ∀ p ∈ l, f p = [p]) : l.flatMap f = l := by
  induction l with
  | nil => rfl
  | cons a l ih =>
    rw [List.flatMap_cons, h a (by simp), ih (fun p hp => h p (by simp [hp]))]
    rfl

theorem flatMap_congr (l : List (List Char)) (f g : List Char → List (List Char))
    (h : ∀ a ∈ l, f a = g a) : l.flatMap f = l.flatMap g := by
  induction l with
  | nil => rfl
  | cons a l ih =>
    rw [List.flatMap_cons, List.flatMap_cons, h a (by simp),
      ih (fun p hp => h p (by simp [hp]))]

theorem adjustWordEn_parts (role w0 w p : List Char)
    (hr : roleSafeL role = true)
    (hw0 : ∀ c ∈ w0, c ≠ ' ')
    (hw : w ∈ adjustWordEn role w0)
    (hp : p ∈ splitW w) :
    adjustWordEn role p = [p] := by
  simp only [adjustWordEn] at hw
  split at hw
  case isTrue hcond =>
    rw [List.mem_singleton] at hw
    subst hw
    exact adjustWordEn_of_not role p
      (roleSafe_part role p _ hr (splitCore_punct_isPunct w0) hp)
  case isFalse hcond =>
    split at hw
    case isTrue hcond2 =>
      rcases List.mem_cons.mp hw with h2 | h2
      · subst h2
        have hpart : p ∈ splitW (capitalizeRole role ++ []) := by simpa using hp
        exact adjustWordEn_of_not role p
          (roleSafe_part role p [] hr (by simp) hpart)
      · rw [List.mem_singleton] at h2
        subst h2
        have hns : ∀ c ∈ "himself".data ++ (splitCore w0).2, c ≠ ' ' := by
          intro c hc
          rcases List.mem_append.mp hc with h3 | h3
          · exact (by decide : ∀ d ∈ "himself".data, d ≠ ' ') c h3
          · exact punct_nospace _ (splitCore_punct_isPunct w0) c h3
        rw [splitW_nospace _ hns, List.mem_singleton] at hp
        subst hp
        apply adjustWordEn_of_not
        rw [splitCore_append_punct _ _ (splitCore_punct_isPunct w0)]
        decide
    case isFalse hcond2 =>
      rw [List.mem_singleton] at hw
      rw [hw] at hp
      rw [splitW_nospace w0 hw0, List.mem_singleton] at hp
      rw [hp]
      simp only [adjustWordEn]
      rw [if_neg hcond, if_neg hcond2]

theorem adjustTextEn_idem (role text : List Char) (hr : roleSafeL role = true) :
    adjustTextEn role (adjustTextEn role text) = adjustTextEn role text := by
  have hne : (splitW text).flatMap (adjustWordEn role) ≠ [] :=
    flatMap_adjust_ne_nil role _ (splitW_ne_nil text)
  have hfix : ∀ w ∈ (splitW text).flatMap (adjustWordEn role),
      (splitW w).flatMap (adjustWordEn role) = splitW w := by
    intro w hwmem
    obtain ⟨w0, hw0mem, hw0⟩ := List.mem_flatMap.mp hwmem
    apply flatMap_eq_self
    intro p hp
    exact adjustWordEn_parts role w0 w p hr
      (mem_splitW_nospace text w0 hw0mem) hw0 hp
  simp only [adjustTextEn]
  rw [splitW_joinW_flat _ hne, List.flatMap_assoc,
    flatMap_congr _ _ _ hfix, joinW_flatMap_splitW _ hne]

theorem adjustTextZh_no_self (l : List Char) : ∀ c ∈ adjustTextZh l, c ≠ '我' := by
  induction l with
  | nil => simp [adjustTextZh]
  | cons c rest ih =>
    simp only [adjustTextZh]
    by_cases hc : c = '我'
    · simp only [hc, if_true]
      intro d hd
      rcases List.mem_append.mp hd with h1 | h1
      · exact (by decide : ∀ d ∈ "用户".data, d ≠ '我') d h1
      · exact ih d h1
    · simp only [hc, if_false]
      intro d hd
      rcases List.mem_cons.mp hd with h1 | h1
      · rw [h1]; exact hc
      · exact ih d h1

theorem adjustTextZh_fixed (l : List Char) (h : ∀ c ∈ l, c ≠ '我') :
    adjustTextZh l = l := by
  induction l with
  | nil => rfl
  | cons c rest ih =>
    simp only [adjustTextZh]
    rw [if_neg (h c (by simp)), ih (fun d hd => h d (by simp [hd]))]

theorem adjust_perspective_idem (x role lang : String) (hr : roleSafe role = true) :
    adjust_perspective (adjust_perspective x role lang) role lang =
      adjust_perspective x role lang := by
  unfold adjust_perspective
  by_cases hzh : lang = "zh"
  · simp only [hzh, if_true]
    show String.mk (adjustTextZh (adjustTextZh x.data)) = String.mk (adjustTextZh x.data)
    rw [adjustTextZh_fixed _ (adjustTextZh_no_self x.data)]
  · by_cases hen : lang = "en"
    · simp only [hzh, if_false, hen, if_true]
      show String.mk (adjustTextEn role.data (adjustTextEn role.data x.data)) =
        String.mk (adjustTextEn role.data x.data)
      rw [adjustTextEn_idem role.data x.data hr]
    · simp [hzh, hen]

/-- C3 (amended): perspective adjustment is idempotent for every text
and language and every safe role — a role whose title-cased form, split
into words, contains no first-person pronoun, which covers every
ordinary role such as "user" — and the concrete English and Chinese
instances hold: one pass over "I went to the store myself." with
role=user, lang=en yields a text containing "User" and "User himself",
and one pass over "我喜欢吃苹果" with lang=zh yields a text containing
"用户". -/
theorem C3_adjust_idempotent :
    (∀ (x role lang : String), roleSafe role = true →
      adjust_perspective (adjust_perspective x role lang) role lang =
        adjust_perspective x role lang) ∧
    containsStr (adjust_perspective "I went to the store myself." "user" "en")
      "User" = true ∧
    containsStr (adjust_perspective "I went to the store myself." "user" "en")
      "User himself" = true ∧
    containsStr (adjust_perspective "我喜欢吃苹果" "user" "zh") "用户" = true := by
  refine ⟨fun x role lang hr => adjust_perspective_idem x role lang hr,
    by decide, by decide, by decide⟩

/-- Witness for C3: the safe-role hypothesis is discharged at the
concrete role "user" and the idempotence conclusion holds at a concrete
text. -/
theorem C3_adjust_idempotent_witness :
    roleSafe "user" = true ∧
    adjust_perspective (adjust_perspective "I like apples." "user" "en") "user" "en" =
      adjust_perspective "I like apples." "user" "en" :=
  ⟨by decide, C3_adjust_idempotent.1 "I like apples." "user" "en" (by decide)⟩

/-- C3 counterexample: quantified over every role the idempotence claim
fails.  With role="i x" the title-cased role is "I x", whose first word
is again the pronoun "I"; adjusting "me" once gives "I x" but adjusting
twice gives "I x x". -/
theorem C3_adjust_idempotent_counterexample :
    adjust_perspective (adjust_perspective "me" "i x" "en") "i x" "en" ≠
      adjust_perspective "me" "i x" "en" := by decide

/-- C10: in English perspective adjustment the substitution uses the
declared role rendered title-cased, not the raw role string: with the
lowercase role "user" the pronouns become "User" and "User himself"
with a capital U, and the lowercase form "user himself" does not occur. -/
theorem C10_titlecased_role :
    capitalizeRole "user".data = "User".data ∧
    adjust_perspective "I went to the store myself." "user" "en" =
      "User went to the store User himself." ∧
    containsStr (adjust_perspective "I went to the store myself." "user" "en")
      "user himself" = false := by
  refine ⟨by decide, by decide, by decide⟩

/-- C4: CompareOneToMany returns exactly one NLIResult per target and in
target order (a successful server reply of matching length is returned
verbatim), and an empty target list yields the empty result with zero
remote calls. -/
theorem C4_compare_length_order
    (server : String → List String → Except String (List NLIResult))
    (source : String) (targets : List String) :
    (compare_one_to_many server source targets).1.length = targets.length ∧
    (targets = [] → compare_one_to_many server source targets = ([], 0)) ∧
    (∀ rs, server source targets = Except.ok rs → rs.length = targets.length →
      (compare_one_to_many server source targets).1 = rs) := by
  refine ⟨?_, ?_, ?_⟩
  · cases targets with
    | nil => simp [compare_one_to_many]
    | cons t ts =>
      simp only [compare_one_to_many, List.isEmpty_cons, Bool.false_eq_true,
        if_false]
      cases hs : server source (t :: ts) with
      | ok rs =>
        simp only [List.length_append, List.length_take, List.length_replicate]
        omega
      | error e => simp
  · intro h
    rw [h]
    simp [compare_one_to_many]
  · intro rs hs hlen
    cases targets with
    | nil =>
      simp only [List.length_nil, List.length_eq_zero] at hlen
      rw [hlen]
      simp [compare_one_to_many]
    | cons t ts =>
      simp only [compare_one_to_many, List.isEmpty_cons, Bool.false_eq_true,
        if_false, hs]
      rw [← hlen, List.take_length, Nat.sub_self]
      simp

/-- Witness for C4: a correct-length server reply is returned verbatim
at a concrete input. -/
theorem C4_compare_length_order_witness :
    (compare_one_to_many
        (fun _ _ => Except.ok [NLIResult.DUPLICATE, NLIResult.CONTRADICTION])
        "I like apples." ["I love fruit.", "I hate apples."]).1 =
      [NLIResult.DUPLICATE, NLIResult.CONTRADICTION] :=
  (C4_compare_length_order
      (fun _ _ => Except.ok [NLIResult.DUPLICATE, NLIResult.CONTRADICTION])
      "I like apples." ["I love fruit.", "I hate apples."]).2.2
    [NLIResult.DUPLICATE, NLIResult.CONTRADICTION] rfl rfl

/-- C5: when the server-side handler errors on a non-empty target list,
the client does not fail the caller and answers the fallback UNRELATED
for every target. -/
theorem C5_server_error_fallback
    (server : String → List String → Except String (List NLIResult))
    (source : String) (targets : List String) (msg : String)
    (hne : targets ≠ [])
    (herr : server source targets = Except.error msg) :
    compare_one_to_many server source targets =
      (List.replicate targets.length NLIResult.UNRELATED, 1) := by
  cases targets with
  | nil => exact absurd rfl hne
  | cons t ts => simp [compare_one_to_many, herr]

/-- Witness for C5: a failing handler at a concrete input yields the
UNRELATED fallback. -/
theorem C5_server_error_fallback_witness :
    compare_one_to_many (fun _ _ => Except.error "Something went wrong")
      "I like apples." ["I love fruit."] = ([NLIResult.UNRELATED], 1) :=
  C5_server_error_fallback (fun _ _ => Except.error "Something went wrong")
    "I like apples." ["I love fruit."] "Something went wrong"
    (by simp) rfl

/-- C7: the goal parser never fails the caller on malformed model
output: a first successful decode is returned after one prompt; on a
first JSON-shape mismatch exactly the corrective prompt is issued in
addition, and when the retry also fails the result is the minimal
fallback goal (memories = [task], empty keys and tags, goal type
Retrieval). -/
theorem C7_parse_fallback
    (llm : String → String) (decode : String → Option ParsedTaskGoal)
    (task : String) (mode : ParseMode) :
    (∀ g, decode (llm (initPrompt mode task)) = some g →
      parseTaskGoal llm decode task mode = (g, [initPrompt mode task])) ∧
    (decode (llm (initPrompt mode task)) = none →
      (parseTaskGoal llm decode task mode).2 =
        [initPrompt mode task, correctivePrompt mode task] ∧
      (decode (llm (correctivePrompt mode task)) = none →
        (parseTaskGoal llm decode task mode).1 = fallbackGoal task)) := by
  refine ⟨?_, ?_⟩
  · intro g hg
    simp [parseTaskGoal, hg]
  · intro h1
    refine ⟨?_, ?_⟩
    · cases h2 : decode (llm (correctivePrompt mode task)) <;>
        simp [parseTaskGoal, h1, h2]
    · intro h2
      simp [parseTaskGoal, h1, h2]

/-- Witness for C7: with a decoder that always rejects, parsing a
concrete task issues the initial and corrective prompts and returns the
minimal fallback goal. -/
theorem C7_parse_fallback_witness :
    (parseTaskGoal (fun p => p) (fun _ => none)
        "When did Caroline go to the LGBTQ support group?" ParseMode.fast).1 =
      fallbackGoal "When did Caroline go to the LGBTQ support group?" ∧
    (parseTaskGoal (fun p => p) (fun _ => none)
        "When did Caroline go to the LGBTQ support group?" ParseMode.fast).2 =
      [initPrompt ParseMode.fast "When did Caroline go to the LGBTQ support group?",
       correctivePrompt ParseMode.fast "When did Caroline go to the LGBTQ support group?"] := by
  have h := (C7_parse_fallback (fun p => p) (fun _ => none)
    "When did Caroline go to the LGBTQ support group?" ParseMode.fast).2 rfl
  exact ⟨h.2 rfl, h.1⟩

theorem dedupById_not_seen (seen : List Nat) (l : List ScoredNode) :
    ∀ s ∈ dedupById seen l, s.node.id ∉ seen := by
  induction l generalizing seen with
  | nil => simp [dedupById]
  | cons a l ih =>
    simp only [dedupById]
    by_cases h : a.node.id ∈ seen
    · rw [if_pos h]
      exact ih seen
    · rw [if_neg h]
      intro s hs
      rcases List.mem_cons.mp hs with h1 | h1
      · rw [h1]; exact h
      · have h2 := ih (a.node.id :: seen) s h1
        intro h3
        exact h2 (List.mem_cons.mpr (Or.inr h3))

theorem dedupById_nodup (seen : List Nat) (l : List ScoredNode) :
    ((dedupById seen l).map (fun s => s.node.id)).Nodup := by
  induction l generalizing seen with
  | nil => simp [dedupById]
  | cons a l ih =>
    simp only [dedupById]
    by_cases h : a.node.id ∈ seen
    · rw [if_pos h]
      exact ih seen
    · rw [if_neg h]
      simp only [List.map_cons, List.nodup_cons]
      refine ⟨?_, ih (a.node.id :: seen)⟩
      intro hmem
      obtain ⟨s, hs, hid⟩ := List.mem_map.mp hmem
      have h2 := dedupById_not_seen (a.node.id :: seen) l s hs
      exact h2 (by rw [hid]; exact List.mem_cons.mpr (Or.inl rfl))

/-- C6: the hybrid-retriever result contains no two items with the same
node id, has length at most topK, and is sorted by descending combined
score, with equal-score ties broken by the later `updated_at` first
(the ranking relation `rankLE`). -/
theorem C6_retrieve_ranked
    (vector : List ScoredNode) (keywordIds : List Nat)
    (graph : List (ScoredNode × MemoryNode)) (topK : Nat) :
    ((retrieve vector keywordIds graph topK).map (fun s => s.node.id)).Nodup ∧
    (retrieve vector keywordIds graph topK).length ≤ topK ∧
    (retrieve vector keywordIds graph topK).Sorted rankLE := by
  refine ⟨?_, ?_, ?_⟩
  · have h1 : ((dedupById []
        (fuseScores vector keywordIds ++ graphStage graph)).map
          (fun s => s.node.id)).Nodup :=
      dedupById_nodup [] _
    have hperm : List.Perm
        ((List.insertionSort rankLE (dedupById []
          (fuseScores vector keywordIds ++ graphStage graph))).map
            (fun s => s.node.id))
        ((dedupById [] (fuseScores vector keywordIds ++ graphStage graph)).map
          (fun s => s.node.id)) :=
      (List.perm_insertionSort rankLE _).map _
    have h2 := (hperm.nodup_iff).mpr h1
    rw [retrieve, List.map_take]
    exact List.Nodup.sublist (List.take_sublist _ _) h2
  · rw [retrieve, List.length_take]
    exact Nat.min_le_left _ _
  · rw [retrieve]
    exact List.Pairwise.sublist (List.take_sublist _ _)
      (List.sorted_insertionSort rankLE _)

/-- C8: every Follows connection the reasoning operation creates is
strictly ordered by time.  Both producers are covered: every sequence
link goes from a node with strictly earlier `updated_at` to a strictly
later one, and every Follows-typed edge of the relations output joins
two nodes of the batch whose `updated_at` are strictly ordered from
source to target; equal or reversed timestamps never yield a Follows
edge. -/
theorem C8_follows_ordered
    (relClassify : MemoryNode → MemoryNode → Option RelationType)
    (aggId : Nat) (anchor : MemoryNode) (neighbors : List MemoryNode) :
    (∀ p ∈ (process_node relClassify aggId anchor neighbors).seq_links,
      p.1.updated_at < p.2.updated_at) ∧
    (∀ e ∈ (process_node relClassify aggId anchor neighbors).relations,
      e.relation_type = RelationType.Follows →
      ∃ a b, (a = anchor ∨ a ∈ neighbors) ∧ (b = anchor ∨ b ∈ neighbors) ∧
        e.source_id = a.id ∧ e.target_id = b.id ∧
        a.updated_at < b.updated_at) := by
  constructor
  · intro p hp
    simp only [process_node, sequence_links] at hp
    obtain ⟨n, hn, hfn⟩ := List.mem_filterMap.mp hp
    by_cases h1 : isTemporalAssoc (relClassify anchor n) = true
    · rw [if_pos h1] at hfn
      by_cases h2 : anchor.updated_at < n.updated_at
      · rw [if_pos h2] at hfn
        cases hfn
        exact h2
      · rw [if_neg h2] at hfn
        by_cases h3 : n.updated_at < anchor.updated_at
        · rw [if_pos h3] at hfn
          cases hfn
          exact h3
        · rw [if_neg h3] at hfn
          cases hfn
    · rw [if_neg h1] at hfn
      cases hfn
  · intro e he hfol
    simp only [process_node] at he
    obtain ⟨n, hn, hbind⟩ := List.mem_filterMap.mp he
    cases hr : relClassify anchor n with
    | none =>
      rw [hr] at hbind
      cases hbind
    | some r =>
      rw [hr, Option.some_bind] at hbind
      by_cases hrf : r = RelationType.Follows
      · rw [hrf] at hbind
        rw [mkRelationEdge, if_pos rfl] at hbind
        by_cases h1 : anchor.updated_at < n.updated_at
        · rw [if_pos h1] at hbind
          cases hbind
          exact ⟨anchor, n, Or.inl rfl, Or.inr hn, rfl, rfl, h1⟩
        · rw [if_neg h1] at hbind
          by_cases h2 : n.updated_at < anchor.updated_at
          · rw [if_pos h2] at hbind
            cases hbind
            exact ⟨n, anchor, Or.inr hn, Or.inl rfl, rfl, rfl, h2⟩
          · rw [if_neg h2] at hbind
            cases hbind
      · rw [mkRelationEdge, if_neg hrf] at hbind
        cases hbind
        exact absurd hfol hrf

/-- Witness for C8: with a classifier marking the concrete pair as
Follows, the sequence link goes from the earlier node to the later one
and the one produced relations edge is the ordered Follows edge. -/
theorem C8_follows_ordered_witness :
    ((nodeA, nodeB) ∈ (process_node (fun _ _ => some RelationType.Follows)
        0 nodeA [nodeB]).seq_links ∧
      nodeA.updated_at < nodeB.updated_at) ∧
    (({ source_id := nodeA.id, target_id := nodeB.id,
        relation_type := RelationType.Follows } : MemoryEdge) ∈
        (process_node (fun _ _ => some RelationType.Follows)
          0 nodeA [nodeB]).relations ∧
      ∃ a b, (a = nodeA ∨ a ∈ [nodeB]) ∧ (b = nodeA ∨ b ∈ [nodeB]) ∧
        nodeA.id = a.id ∧ nodeB.id = b.id ∧ a.updated_at < b.updated_at) :=
  ⟨⟨by decide, (C8_follows_ordered (fun _ _ => some RelationType.Follows)
      0 nodeA [nodeB]).1 (nodeA, nodeB) (by decide)⟩,
    ⟨by decide, (C8_follows_ordered (fun _ _ => some RelationType.Follows)
      0 nodeA [nodeB]).2
      { source_id := nodeA.id, target_id := nodeB.id,
        relation_type := RelationType.Follows } (by decide) rfl⟩⟩

/-- C9: every aggregate produced by the reasoning engine has at least
two sources and carries an Aggregates edge from the aggregate to every
member of its cluster. -/
theorem C9_aggregate_sources
    (relClassify : MemoryNode → MemoryNode → Option RelationType)
    (aggId : Nat) (anchor : MemoryNode) (neighbors : List MemoryNode)
    (a : MemoryNode) (es : List MemoryEdge)
    (h : (a, es) ∈ (process_node relClassify aggId anchor neighbors).agg_nodes) :
    2 ≤ a.sources.length ∧
    ∀ sid ∈ a.sources, ∃ e ∈ es, e.source_id = a.id ∧ e.target_id = sid ∧
      e.relation_type = RelationType.Aggregates := by
  simp only [process_node, aggregate_nodes] at h
  by_cases hc : 2 ≤ (anchor :: neighbors.filter (fun n =>
      decide (2 ≤ sharedTagCount anchor n) || decide (n.key = anchor.key))).length
  · rw [if_pos hc, List.mem_singleton, Prod.mk.injEq] at h
    obtain ⟨ha, hes⟩ := h
    subst ha
    subst hes
    constructor
    · simpa [List.length_map] using hc
    · intro sid hsid
      obtain ⟨m, hm, hmid⟩ := List.mem_map.mp hsid
      exact ⟨_, List.mem_map.mpr ⟨m, hm, rfl⟩, rfl, hmid, rfl⟩
  · rw [if_neg hc] at h
    cases h

/-- Witness for C9: the concrete anchor and its same-key neighbor form
a two-member cluster whose aggregate has two sources. -/
theorem C9_aggregate_sources_witness :
    aggW ∈ (process_node (fun _ _ => none) 99 nodeA [nodeC]).agg_nodes ∧
    2 ≤ aggW.1.sources.length :=
  ⟨by decide, (C9_aggregate_sources (fun _ _ => none) 99 nodeA [nodeC]
    aggW.1 aggW.2 (by decide)).1⟩

theorem core_committed_inv (nli : String → String → NLIResult)
    (rk : List MemoryNode → String → List MemoryNode)
    (store : List MemoryNode) (cand : Candidate) (A : String)
    (hfirst : (checkAndCommitCore nli rk store cand A).1 =
      CommitDecision.Committed cand.id) :
    (rk store A).find? (dupPred nli A) = none ∧
    (checkAndCommitCore nli rk store cand A).2 =
      newNode cand A false :: store := by
  cases hf1 : (rk store A).find? (dupPred nli A) with
  | some n =>
    simp only [checkAndCommitCore, hf1] at hfirst
    exact absurd hfirst (by simp)
  | none =>
    cases hf2 : (rk store A).find? (contraPred nli A) with
    | some n =>
      simp only [checkAndCommitCore, hf1, hf2] at hfirst
      exact absurd hfirst (by simp)
    | none =>
      refine ⟨rfl, ?_⟩
      simp only [checkAndCommitCore, hf1, hf2]

/-- C1: with an NLI classifier that marks identical texts as duplicates
and a retriever that always surfaces live nodes carrying exactly the
searched text, committing the same candidate twice returns Committed on
the first call (hypothesis) and SkippedDuplicate on the second, and
after both calls at most one live node with the adjusted text exists in
the namespace. -/
theorem C1_duplicate_twice (nli : String → String → NLIResult)
    (retrieveK : List MemoryNode → String → List MemoryNode)
    (store : List MemoryNode) (cand : Candidate)
    (hnli : ∀ s, nli s s = NLIResult.DUPLICATE)
    (hcomplete : ∀ st t n, n ∈ st → n.status = NodeStatus.Activated →
      n.text = t → n ∈ retrieveK st t)
    (hfirst : (checkAndCommit nli retrieveK store cand).1 =
      CommitDecision.Committed cand.id) :
    (∃ i, (checkAndCommit nli retrieveK
        (checkAndCommit nli retrieveK store cand).2 cand).1 =
      CommitDecision.SkippedDuplicate i) ∧
    (liveWithText (checkAndCommit nli retrieveK
        (checkAndCommit nli retrieveK store cand).2 cand).2
      (adjust_perspective cand.text cand.role cand.lang)).length ≤ 1 := by
  simp only [checkAndCommit] at hfirst ⊢
  generalize hA : adjust_perspective cand.text cand.role cand.lang = A at hfirst ⊢
  obtain ⟨hf1, hst1⟩ := core_committed_inv nli retrieveK store cand A hfirst
  rw [hst1]
  have hmem : newNode cand A false ∈ retrieveK (newNode cand A false :: store) A :=
    hcomplete _ A _ (by simp) rfl rfl
  have hpred : dupPred nli A (newNode cand A false) = true := by
    simp [dupPred, newNode, hnli]
  have hsome : ((retrieveK (newNode cand A false :: store) A).find?
      (dupPred nli A)).isSome := by
    rw [List.find?_isSome]
    exact ⟨_, hmem, hpred⟩
  obtain ⟨m, hm⟩ := Option.isSome_iff_exists.mp hsome
  have hsecond : checkAndCommitCore nli retrieveK
      (newNode cand A false :: store) cand A =
      (CommitDecision.SkippedDuplicate m.id, newNode cand A false :: store) := by
    simp only [checkAndCommitCore, hm]
  refine ⟨⟨m.id, by rw [hsecond]⟩, ?_⟩
  rw [hsecond]
  show (liveWithText (newNode cand A false :: store) A).length ≤ 1
  have hempty : store.filter (fun n =>
      decide (n.status = NodeStatus.Activated) && decide (n.text = A)) = [] := by
    rw [List.filter_eq_nil_iff]
    intro n hn hpn
    rw [Bool.and_eq_true, decide_eq_true_eq, decide_eq_true_eq] at hpn
    have hmem2 : n ∈ retrieveK store A := hcomplete store A n hn hpn.1 hpn.2
    have hnd := List.find?_eq_none.mp hf1 n hmem2
    apply hnd
    simp [dupPred, hpn.2, hnli]
  rw [liveWithText, List.filter_cons,
    if_pos (show (decide ((newNode cand A false).status = NodeStatus.Activated) &&
      decide ((newNode cand A false).text = A)) = true by simp [newNode]),
    hempty]
  simp

/-- Witness for C1: committing "I like apples." twice into an empty
namespace with the concrete collaborators skips the second write and
leaves a single live node with the adjusted text. -/
theorem C1_duplicate_twice_witness :
    (∃ i, (checkAndCommit nliApples retrieveLive
        (checkAndCommit nliApples retrieveLive [] candApples).2 candApples).1 =
      CommitDecision.SkippedDuplicate i) ∧
    (liveWithText (checkAndCommit nliApples retrieveLive
        (checkAndCommit nliApples retrieveLive [] candApples).2 candApples).2
      (adjust_perspective candApples.text candApples.role candApples.lang)).length ≤ 1 :=
  C1_duplicate_twice nliApples retrieveLive [] candApples
    (fun s => by simp [nliApples])
    (fun st t n hn hs ht => by simp [retrieveLive, List.mem_filter, hn, hs])
    (by decide)

/-- C2: when the candidate contradicts a retrieved stored fact (and no
retrieved neighbor is a duplicate), the checker flags the write: the
decision is Flagged, a node carrying the adjusted text with the
conflict marker is written, and the text of the original node is
unchanged by the call. -/
theorem C2_contradiction_flag (nli : String → String → NLIResult)
    (retrieveK : List MemoryNode → String → List MemoryNode)
    (store : List MemoryNode) (cand : Candidate) (orig : MemoryNode)
    (horig : orig ∈ retrieveK store
      (adjust_perspective cand.text cand.role cand.lang))
    (hcontra : nli (adjust_perspective cand.text cand.role cand.lang) orig.text =
      NLIResult.CONTRADICTION)
    (hnodup : ∀ n ∈ retrieveK store
        (adjust_perspective cand.text cand.role cand.lang),
      nli (adjust_perspective cand.text cand.role cand.lang) n.text ≠
        NLIResult.DUPLICATE)
    (hid : cand.id ≠ orig.id) :
    (∃ i, (checkAndCommit nli retrieveK store cand).1 =
      CommitDecision.Flagged i) ∧
    (∃ n, n ∈ (checkAndCommit nli retrieveK store cand).2 ∧
      n.text = adjust_perspective cand.text cand.role cand.lang ∧
      n.flagged = true) ∧
    getNodeText (checkAndCommit nli retrieveK store cand).2 orig.id =
      getNodeText store orig.id := by
  simp only [checkAndCommit]
  generalize hA : adjust_perspective cand.text cand.role cand.lang = A at horig hcontra hnodup ⊢
  have hf1 : (retrieveK store A).find? (dupPred nli A) = none := by
    rw [List.find?_eq_none]
    intro n hn
    simp only [dupPred, decide_eq_true_eq]
    exact hnodup n hn
  have hsome : ((retrieveK store A).find? (contraPred nli A)).isSome := by
    rw [List.find?_isSome]
    exact ⟨orig, horig, by simp [contraPred, hcontra]⟩
  obtain ⟨m, hm⟩ := Option.isSome_iff_exists.mp hsome
  have hres : checkAndCommitCore nli retrieveK store cand A =
      (CommitDecision.Flagged m.id, newNode cand A true :: store) := by
    simp only [checkAndCommitCore, hf1, hm]
  refine ⟨⟨m.id, by rw [hres]⟩,
    ⟨newNode cand A true, by rw [hres]; simp, rfl, rfl⟩, ?_⟩
  rw [hres]
  show getNodeText (newNode cand A true :: store) orig.id =
    getNodeText store orig.id
  rw [getNodeText, getNodeText,
    List.find?_cons_of_neg _ (by simp [newNode, hid])]

/-- Witness for C2: "User dislikes apples." against the stored
"User likes apples." is flagged, the flagged node is written, and the
original text is unchanged. -/
theorem C2_contradiction_flag_witness :
    (∃ i, (checkAndCommit nliApples retrieveLive [nodeOrig] candContra).1 =
      CommitDecision.Flagged i) ∧
    (∃ n, n ∈ (checkAndCommit nliApples retrieveLive [nodeOrig] candContra).2 ∧
      n.text = adjust_perspective candContra.text candContra.role candContra.lang ∧
      n.flagged = true) ∧
    getNodeText (checkAndCommit nliApples retrieveLive [nodeOrig] candContra).2
        nodeOrig.id =
      getNodeText [nodeOrig] nodeOrig.id :=
  C2_contradiction_flag nliApples retrieveLive [nodeOrig] candContra nodeOrig
    (by decide) (by decide) (by decide) (by decide)
